import Mathlib

/-!
A shallow embedding of the Hidden Markov Model engine of this repository
(`src/hmm.coffee`, together with its JavaScript twin `hmm.js`) and proofs
about it.  States and symbols are strings; probabilities are embedded as
exact rationals (ℚ); the JavaScript objects used as probability tables are
embedded as insertion-ordered association lists, so that
`JSON.stringify`-equality of two such tables coincides with structural
equality of the lists.  `Number.prototype.toFixed 6` followed by
`parseFloat` is embedded as exact round-half-up to six decimal digits
(`round6`); every concrete value appearing in the claims is far from a
rounding tie, so the tie direction is immaterial.
-/

-- Batteries marks rational arithmetic `irreducible`, which blocks kernel
-- evaluation of the concrete scenarios below; restore reducibility for this
-- file so that `decide` can run the embedded algorithms.
attribute [local semireducible] Rat.mul Rat.add Rat.inv

namespace HmmSpec

/-- Ordered association list: the embedding of a JavaScript object used as a
map from strings.  Only the first occurrence of a key is ever visible, and
all table-building code below updates keys in place, mirroring JS property
semantics. -/
abbrev Table1 := List (String × ℚ)

abbrev Table2 := List (String × Table1)

/-- Property read `obj[k]`: first binding of `k`, if any. -/
def alookup {α : Type} : List (String × α) → String → Option α
  | [], _ => none
  | (k', v) :: t, k => if k' = k then some v else alookup t k

/-- Property write `obj[k] = v`: overwrite the first binding of `k` in place,
or append a fresh binding (JS insertion order). -/
def aset {α : Type} : List (String × α) → String → α → List (String × α)
  | [], k, v => [(k, v)]
  | (k', w) :: t, k, v => if k' = k then (k', v) :: t else (k', w) :: aset t k v

/-- Read-modify-write `obj[k] = f obj[k]` (used for the `?=`/`++` counting
idioms of `reestimate`). -/
def aupd {α : Type} (l : List (String × α)) (k : String) (f : Option α → α) :
    List (String × α) :=
  aset l k (f (alookup l k))

/-- `parseFloat (x.toFixed 6)`: round half-up to six decimal digits.
(`Rat.floor` is used instead of `⌊·⌋` so that the kernel can evaluate it;
`round6_eq_floor` below identifies the two.) -/
def round6 (q : ℚ) : ℚ := ((Rat.floor (q * 1000000 + 1/2) : ℤ) : ℚ) / 1000000

theorem round6_eq_floor (q : ℚ) :
    round6 q = ((⌊q * 1000000 + 1/2⌋ : ℤ) : ℚ) / 1000000 := by
  unfold round6
  rw [Rat.floor_def', ← Rat.floor_def]

/-- The model: `states`, `finalState`, `symbols` and the three probability
tables, exactly the fields set by the `HMM` constructor. -/
structure HMM where
  states : List String
  finalState : String
  symbols : List String
  initialProbability : Table1
  transitionProbability : Table2
  emissionProbability : Table2
deriving DecidableEq

/-- `ip`: initial probability of a state; `@initialProbability[state] ? 0`. -/
def HMM.ip (m : HMM) (state : String) : ℚ :=
  (alookup m.initialProbability state).getD 0

/-- `tp`: transition probability; `@transitionProbability[source]?[target] ? 0`. -/
def HMM.tp (m : HMM) (source target : String) : ℚ :=
  match alookup m.transitionProbability source with
  | none => 0
  | some row => (alookup row target).getD 0

/-- `ep`: emission probability; `@emissionProbability[state]?[symbol] ? 0`. -/
def HMM.ep (m : HMM) (state symbol : String) : ℚ :=
  match alookup m.emissionProbability state with
  | none => 0
  | some row => (alookup row symbol).getD 0

/-- The max-scan `max = [0, null]; for s in l: if f s >= max[0] then
max = [f s, s]` used three times inside `viterbi` (interior recurrence,
termination step, final selection) — note the `>=` at all three sites. -/
def vmax (l : List String) (f : String → ℚ) : ℚ × Option String :=
  l.foldl (fun mx s => if mx.1 ≤ f s then (f s, some s) else mx) (0, none)

/-- One interior trellis column: for each target state,
`V[t][target] = max over sources of V[t-1][source] * tp(source,target) *
ep(target, item[t])`.  The previous column always has one binding per state,
so the `getD 0` default is never exercised by the algorithm. -/
def vcol (m : HMM) (prev : Table1) (x : String) : Table1 :=
  m.states.map fun target =>
    (target, (vmax m.states fun s =>
      (alookup prev s).getD 0 * (m.tp s target * m.ep target x)).1)

/-- One interior path column: each target extends the path of the argmax
source (`newpath[target] = path[max[1]].concat target`).  The argmax is
`some` state whenever the scores are nonnegative and `states` is nonempty,
so the `getD []` default is never exercised by the algorithm. -/
def pcol (m : HMM) (prev : Table1) (paths : List (String × List String))
    (x : String) : List (String × List String) :=
  m.states.map fun target =>
    let mx := vmax m.states fun s =>
      (alookup prev s).getD 0 * (m.tp s target * m.ep target x)
    (target, (mx.2.bind (alookup paths)).getD [] ++ [target])

/-- The `for t in [1...item.length]` loop of `viterbi`, threading the score
column and the path map. -/
def vrun (m : HMM) : Table1 → List (String × List String) → List String →
    Table1 × List (String × List String)
  | V, P, [] => (V, P)
  | V, P, x :: rest => vrun m (vcol m V x) (pcol m V P x) rest

/-- `viterbi` before the final `toFixed 6`: returns the raw winning score and
the winning path (`none` embeds the JavaScript `path[null] = undefined` that
arises when no scan entry ever fires).  Translated from `hmm.coffee`
lines 233–277; the claims only concern nonempty items, and the `[]` case
(whose CoffeeScript behaviour indexes `item[0]` of an empty array) is fixed
arbitrarily. -/
def viterbiCore (m : HMM) : List String → ℚ × Option (List String)
  | [] => (0, none)
  | x0 :: rest =>
    let V0 : Table1 := m.states.map fun s => (s, m.ip s * m.ep s x0)
    let P0 : List (String × List String) := m.states.map fun s => (s, [s])
    let VP := vrun m V0 P0 rest
    -- termination step: fold in tp(s, finalState) at the last column
    let term := vmax m.states fun s => (alookup VP.1 s).getD 0 * m.tp s m.finalState
    let VL : Table1 := [(m.finalState, term.1)]
    let P' := aset VP.2 m.finalState
      (((term.2.bind (alookup VP.2)).getD []) ++ [m.finalState])
    -- final selection: `V[item.length][state] ? 0`, same `>=` scan
    let fin := vmax m.states fun s => (alookup VL s).getD 0
    (fin.1, fin.2.bind (alookup P'))

/-- `viterbi`: probability is `parseFloat (max[0].toFixed 6)`. -/
def viterbi (m : HMM) (item : List String) : ℚ × Option (List String) :=
  ((round6 (viterbiCore m item).1), (viterbiCore m item).2)

/-- `forwardProbability` from `hmm.coffee` lines 287–308.  The inner `let`
closure is `getSequenceProbability source rest`: probability of generating
`rest` and terminating, starting *after* `source` has emitted.  The result is
rounded to six decimal digits at *every* level of the recursion, because the
recursive calls go through `forwardProbability` itself.  An empty item makes
every emission lookup miss (`_.head []` is `undefined`), so the result is 0. -/
def forwardProbability (m : HMM) : List String → Option String → ℚ
  | [], _ => 0
  | x :: rest, st =>
    let seqProb : String → ℚ := fun source =>
      match rest with
      | [] => m.tp source m.finalState
      | _ :: _ =>
        (m.states.map fun target =>
          m.tp source target * forwardProbability m rest (some target)).sum
    match st with
    | none =>
      round6 (m.states.foldl (fun acc s =>
        let iep := m.ep s x * m.ip s
        if 0 < iep then acc + iep * seqProb s else acc) 0)
    | some s => round6 (m.ep s x * seqProb s)

/-- `generationProbability`. -/
def generationProbability (m : HMM) (item : List String) : ℚ :=
  forwardProbability m item none

/-- The worked 3-state model of the repository's test suites: states
{1,2,3,F}, final state F, symbols {a,b,c}, with the initial, transition and
emission tables of the worked example. -/
def workedModel : HMM where
  states := ["1", "2", "3", "F"]
  finalState := "F"
  symbols := ["a", "b", "c"]
  initialProbability := [("1", 1)]
  transitionProbability :=
    [ ("1", [("1", 2/10), ("2", 5/10), ("3", 3/10)])
    , ("2", [("1", 1/10), ("3", 9/10)])
    , ("3", [("3", 4/10), ("F", 6/10)]) ]
  emissionProbability :=
    [ ("1", [("b", 3/10), ("c", 7/10)])
    , ("2", [("a", 3/10), ("b", 6/10), ("c", 1/10)])
    , ("3", [("a", 1)]) ]

/-! ## Re-estimation (`reestimate`, `initialize`)

The repository contains two implementations of `reestimate`: the
CoffeeScript one (`src/hmm.coffee` lines 114–176) and the JavaScript twin
(`hmm.js`).  They differ in two ways that matter for the claims:

* the JS version executes `this.finalState = 'F'` each pass; the
  CoffeeScript one records `fs: @finalState` but never assigns it;
* the JS version derives `initialProbability` with `for (i in initials)`,
  which iterates the *keys* of the `initials` object; the CoffeeScript port
  wrote `for state in initials`, which CoffeeScript compiles to an
  array-style loop (`for (i = 0, len = initials.length; ...)`) — `initials`
  is a plain object with no `length`, so that loop never executes and
  `initialProbability` is never written.

Both are embedded below (`reestimateStep` / `reestimateStepJS`).  In both,
`original.st/sy/ip` are compared with `isnt`/`!==` (reference inequality);
those fields are never *reassigned* inside the loop, so those comparisons
are constantly false and are dropped from the embedded `again` flag. -/

/-- `paths.push @viterbi( item ).path` for every item; a `null` winner (which
in JavaScript would make `path` `undefined`) is embedded as `[]`. -/
def viterbiPaths (m : HMM) (items : List (List String)) : List (List String) :=
  items.map fun it => ((viterbi m it).2).getD []

/-- The `initials` counting pass: frequency of each path's first state.
`_.head []` is `undefined`, which as a JS property key is the string
`"undefined"`. -/
def countInitials (paths : List (List String)) : Table1 :=
  paths.foldl
    (fun acc p => aupd acc (p.head?.getD "undefined") (fun o => o.getD 0 + 1)) []

/-- The co-occurrence accumulators of the counting pass: `sum` (outgoing
occurrences per source state), `transitions` and `symbols`. -/
structure Counts where
  sum : Table1
  transitions : Table2
  symbols : Table2
deriving DecidableEq

/-- One step of the inner `for j in [0...(path.length - 1)]` loop. -/
def countStep (c : Counts) (source target sym : String) : Counts where
  sum := aupd c.sum source (fun o => o.getD 0 + 1)
  transitions :=
    aupd c.transitions source (fun o => aupd (o.getD []) target (fun n => n.getD 0 + 1))
  symbols :=
    aupd c.symbols source (fun o => aupd (o.getD []) sym (fun n => n.getD 0 + 1))

/-- Counting along one path/item pair.  Out-of-range JS indexing yields
`undefined`, i.e. the property key `"undefined"`. -/
def countPath (c : Counts) (path item : List String) : Counts :=
  (List.range (path.length - 1)).foldl
    (fun c j => countStep c (path.getD j "undefined") (path.getD (j+1) "undefined")
      (item.getD j "undefined")) c

/-- The full counting pass over all paths (`items[index]` of a missing index
is `undefined`; indexing it would throw in JS — embedded as `[]`, never
exercised by the claims, whose paths and items are parallel). -/
def countPaths (paths items : List (List String)) : Counts :=
  paths.enum.foldl (fun c pi => countPath c pi.2 (items.getD pi.1 [])) ⟨[], [], []⟩

/-- The derivation loops (`for src, transition of transitions`): divide every
transition and symbol count by `sum[src]`, building the two fresh tables.
States that never occur as a source have no `transitions` row, hence acquire
no entries. -/
def deriveTables (c : Counts) : Table2 × Table2 :=
  c.transitions.foldl
    (fun tb row =>
      let src := row.1
      let s := (alookup c.sum src).getD 0
      ( row.2.foldl (fun t e => aupd t src (fun o => aset (o.getD []) e.1 (e.2 / s))) tb.1
      , ((alookup c.symbols src).getD []).foldl
          (fun t e => aupd t src (fun o => aset (o.getD []) e.1 (e.2 / s))) tb.2 ))
    ([], [])

/-- Result of one pass of the `while shouldRepeat` loop: the updated model,
the (now pinned) paths, and the recomputed `shouldRepeat` flag. -/
structure StepOut where
  model : HMM
  paths : List (List String)
  again : Bool

/-- One pass of the CoffeeScript `reestimate` loop.  The `initials` counts
are computed (see `countInitials`), but the derivation loop
`for state in initials` compiles to an array-style loop over a plain object
and never runs, so `initialProbability` is left untouched.  `finalState` is
not assigned in this version.  The `shouldRepeat` flag keeps only the two
`JSON.stringify` comparisons; for insertion-ordered tables string equality
coincides with structural equality. -/
def reestimateStep (m : HMM) (items : List (List String))
    (po : Option (List (List String))) : StepOut :=
  let origTp := m.transitionProbability
  let origEp := m.emissionProbability
  let paths := po.getD (viterbiPaths m items)
  let te := deriveTables (countPaths paths items)
  { model := { m with transitionProbability := te.1, emissionProbability := te.2 }
  , paths := paths
  , again := decide (origTp ≠ te.1) || decide (origEp ≠ te.2) }

/-- The CoffeeScript `reestimate` loop.  After the first pass `paths` is
assigned, so every later pass reuses it; `reestimate_second_pass_fixed`
(claim C10) proves the flag recomputed by the second pass is always `false`,
so the unbounded `while` loop is extensionally these (at most) two passes. -/
def reestimate (m : HMM) (items : List (List String))
    (po : Option (List (List String))) : HMM :=
  let o1 := reestimateStep m items po
  if o1.again then (reestimateStep o1.model items (some o1.paths)).model else o1.model

/-- One pass of the JavaScript (`hmm.js`) `reestimate` loop: same counting
and table derivation, but `finalState` *is* set to `'F'`, and the
`initialProbability` entries *are* derived (`for (i in initials)` iterates
keys), overwriting existing entries in place without clearing the rest. -/
def reestimateStepJS (m : HMM) (items : List (List String))
    (po : Option (List (List String))) : StepOut :=
  let origFs := m.finalState
  let origTp := m.transitionProbability
  let origEp := m.emissionProbability
  let paths := po.getD (viterbiPaths m items)
  let initials := countInitials paths
  let ip' := initials.foldl
    (fun t e => aset t e.1 (e.2 / (paths.length : ℚ))) m.initialProbability
  let te := deriveTables (countPaths paths items)
  { model := { m with
      finalState := "F"
      initialProbability := ip'
      transitionProbability := te.1
      emissionProbability := te.2 }
    paths := paths
    again := decide (origFs ≠ "F") || decide (origTp ≠ te.1) || decide (origEp ≠ te.2) }

/-- The JavaScript `reestimate` loop, with the same two-pass unfolding as
`reestimate` (the second recomputation reuses the pinned paths and therefore
reproduces the same tables and `'F'`, making its flag `false`). -/
def reestimateJS (m : HMM) (items : List (List String))
    (po : Option (List (List String))) : HMM :=
  let o1 := reestimateStepJS m items po
  if o1.again then (reestimateStepJS o1.model items (some o1.paths)).model else o1.model

/-- `initialize`'s alphabet collection: distinct symbols across all items in
first-seen order. -/
def collectSymbols (items : List (List String)) : List String :=
  items.foldl (fun acc it =>
    it.foldl (fun acc2 s => if s ∈ acc2 then acc2 else acc2 ++ [s]) acc) []

/-- The linear-segmentation path for an item of length `len`: for step `j`
(1-indexed) the state `"#{1 + Math.floor(j * n / (len + 1))}"`, then the
final state `'F'`. -/
def linSegPath (n len : Nat) : List String :=
  ((List.range len).map fun j0 => toString (1 + ((j0 + 1) * n) / (len + 1))) ++ ["F"]

/-- `initialize` (`hmm.coffee` lines 184–202): fresh symbols, states
`"1".."n"` plus `'F'`, one linear-segmentation path per item, then
`reestimate`. -/
def initModel (m : HMM) (items : List (List String)) (n : Nat) : HMM :=
  let symbols := collectSymbols items
  let states := ((List.range n).map fun i => toString (i + 1)) ++ ["F"]
  let paths := items.map fun it => linSegPath n it.length
  reestimate { m with symbols := symbols, states := states, finalState := "F" }
    items (some paths)

/-- The model produced by `new hmm()`: all constructor defaults. -/
def freshModel : HMM where
  states := []
  finalState := ""
  symbols := []
  initialProbability := []
  transitionProbability := []
  emissionProbability := []

/-- `viterbiApproximation`: the probability component of `viterbi`. -/
def viterbiApproximation (m : HMM) (item : List String) : ℚ :=
  (viterbi m item).1

/-! ## Claim theorems -/

set_option maxRecDepth 10000 in
/-- C1: for the worked 3-state model, the Viterbi approximation of
`['b','c','b','a']` is 0.006804 and its forward probability is 0.007339,
and for `['b','c','b','b']` and `['b','c','b','d']` (symbol `'d'` outside
the alphabet) both probabilities are exactly 0. -/
theorem worked_example_probabilities :
    viterbiApproximation workedModel ["b", "c", "b", "a"] = 6804 / 1000000 ∧
    generationProbability workedModel ["b", "c", "b", "a"] = 7339 / 1000000 ∧
    viterbiApproximation workedModel ["b", "c", "b", "b"] = 0 ∧
    generationProbability workedModel ["b", "c", "b", "b"] = 0 ∧
    viterbiApproximation workedModel ["b", "c", "b", "d"] = 0 ∧
    generationProbability workedModel ["b", "c", "b", "d"] = 0 := by
  decide

set_option maxRecDepth 10000 in
/-- C7 (code bug): the claim's `initialProbability(s) = count(paths starting
at s) / total paths` derivation is dead code in `hmm.coffee`: the heads are
counted (`countInitials` finds one path starting at state `"1"`, so the
claimed table is `initialProbability("1") = 1/1`), but the CoffeeScript loop
`for state in initials` iterates a plain object array-style and never runs,
so re-estimation returns the *old* `initialProbability` (here the unrelated
entry `("2", 1)`) and `ip "1"` stays 0 instead of becoming 1. -/
theorem reestimate_initials_derivation_dead :
    countInitials [["1", "F"]] = [("1", 1)] ∧
    (reestimate { states := ["1", "2", "F"], finalState := "F", symbols := ["x"]
                , initialProbability := [("2", 1)], transitionProbability := []
                , emissionProbability := [] }
        [["x"]] (some [["1", "F"]])).initialProbability = [("2", 1)] ∧
    HMM.ip
      (reestimate { states := ["1", "2", "F"], finalState := "F", symbols := ["x"]
                  , initialProbability := [("2", 1)], transitionProbability := []
                  , emissionProbability := [] }
        [["x"]] (some [["1", "F"]])) "1" = 0 := by
  decide

set_option maxRecDepth 10000 in
/-- C9 (code bug): initializing a fresh model with the single sample
`['white','bottle']` and `n = 2` should give generation probability 1 (the
repository's own CoffeeScript test expects 1, and the JavaScript twin
delivers it), but because the CoffeeScript `reestimate` never populates
`initialProbability` (see `reestimate_initials_derivation_dead`), both the
Viterbi approximation and the forward probability of the sample are 0. -/
theorem initModel_single_sample_zero :
    viterbiApproximation (initModel freshModel [["white", "bottle"]] 2)
        ["white", "bottle"] = 0 ∧
    generationProbability (initModel freshModel [["white", "bottle"]] 2)
        ["white", "bottle"] = 0 := by
  decide

/-- A re-estimation pass run on a model whose transition and emission tables
already equal the ones derived from the (pinned) paths changes nothing and
reports `shouldRepeat = false`. -/
theorem step_fixed_of_tables (x : HMM) (items : List (List String))
    (P : List (List String))
    (h1 : x.transitionProbability = (deriveTables (countPaths P items)).1)
    (h2 : x.emissionProbability = (deriveTables (countPaths P items)).2) :
    reestimateStep x items (some P) = { model := x, paths := P, again := false } := by
  unfold reestimateStep
  dsimp only
  simp only [Option.getD_some, ← h1, ← h2]
  have hx : (HMM.mk x.states x.finalState x.symbols x.initialProbability
      x.transitionProbability x.emissionProbability) = x := rfl
  rw [hx]
  simp

/-- C10: the re-estimation fixed-point loop terminates on every input.  The
first pass pins `paths` (computed only when absent, then reused), and the
table derivation is a deterministic function of the pinned paths and items,
so whatever the first pass `o1` produced, the second pass reproduces the
same model and paths and recomputes `shouldRepeat = false` — the `while`
loop runs at most two passes instead of hanging. -/
theorem reestimate_second_pass_fixed (m : HMM) (items : List (List String))
    (po : Option (List (List String))) (o1 : StepOut)
    (h : reestimateStep m items po = o1) :
    reestimateStep o1.model items (some o1.paths) =
      { model := o1.model, paths := o1.paths, again := false } := by
  have h1 : o1.model.transitionProbability =
      (deriveTables (countPaths o1.paths items)).1 := by rw [← h]; rfl
  have h2 : o1.model.emissionProbability =
      (deriveTables (countPaths o1.paths items)).2 := by rw [← h]; rfl
  exact step_fixed_of_tables o1.model items o1.paths h1 h2

/-- Witness for `reestimate_second_pass_fixed`: the worked model re-estimated
on the worked item, with the paths computed by Viterbi on the first pass. -/
theorem reestimate_second_pass_fixed_witness :
    reestimateStep (reestimateStep workedModel [["b", "c", "b", "a"]] none).model
        [["b", "c", "b", "a"]]
        (some (reestimateStep workedModel [["b", "c", "b", "a"]] none).paths) =
      { model := (reestimateStep workedModel [["b", "c", "b", "a"]] none).model
        paths := (reestimateStep workedModel [["b", "c", "b", "a"]] none).paths
        again := false } :=
  reestimate_second_pass_fixed workedModel [["b", "c", "b", "a"]] none _ rfl

theorem stepJS_states (x : HMM) (items : List (List String))
    (po : Option (List (List String))) :
    (reestimateStepJS x items po).model.states = x.states := rfl

theorem stepJS_symbols (x : HMM) (items : List (List String))
    (po : Option (List (List String))) :
    (reestimateStepJS x items po).model.symbols = x.symbols := rfl

theorem stepJS_final (x : HMM) (items : List (List String))
    (po : Option (List (List String))) :
    (reestimateStepJS x items po).model.finalState = "F" := rfl

/-- C8: re-estimation (the `hmm.js` implementation, where the `finalState`
assignment lives) never changes `states` or `symbols` — only the three
probability tables are recomputed — and sets `finalState` to the canonical
value `'F'` on every pass, for every model, item collection and optional
path collection. -/
theorem reestimateJS_frame (m : HMM) (items : List (List String))
    (po : Option (List (List String))) :
    (reestimateJS m items po).states = m.states ∧
    (reestimateJS m items po).symbols = m.symbols ∧
    (reestimateJS m items po).finalState = "F" := by
  unfold reestimateJS
  dsimp only
  refine ⟨?_, ?_, ?_⟩ <;> split <;>
    simp only [stepJS_states, stepJS_symbols, stepJS_final]

/-- C3: the three accessors are total functions (they are plain lookups with
a `0` default, so they cannot raise), and whenever the queried key is absent
at any nesting level — the state in `initialProbability`, the source row or
the target entry in `transitionProbability`, the state row or the symbol
entry in `emissionProbability` — the accessor returns exactly 0. -/
theorem accessors_total_missing_zero (m : HMM) (s t x : String) :
    (alookup m.initialProbability s = none → m.ip s = 0) ∧
    (alookup m.transitionProbability s = none → m.tp s t = 0) ∧
    (∀ row, alookup m.transitionProbability s = some row →
      alookup row t = none → m.tp s t = 0) ∧
    (alookup m.emissionProbability s = none → m.ep s x = 0) ∧
    (∀ row, alookup m.emissionProbability s = some row →
      alookup row x = none → m.ep s x = 0) := by
  refine ⟨fun h => ?_, fun h => ?_, fun row hr h => ?_, fun h => ?_,
    fun row hr h => ?_⟩
  · unfold HMM.ip
    rw [h]
    rfl
  · unfold HMM.tp
    rw [h]
  · unfold HMM.tp
    rw [hr]
    show (alookup row t).getD 0 = 0
    rw [h]
    rfl
  · unfold HMM.ep
    rw [h]
  · unfold HMM.ep
    rw [hr]
    show (alookup row x).getD 0 = 0
    rw [h]
    rfl

/-- Witness for `accessors_total_missing_zero` on the worked model: state
`"4"` is absent from all three tables, row `"2"` of the transition table has
no `"2"` entry, and row `"2"` of the emission table has no `"d"` entry. -/
theorem accessors_total_missing_zero_witness :
    HMM.ip workedModel "4" = 0 ∧ HMM.tp workedModel "4" "1" = 0 ∧
    HMM.tp workedModel "2" "2" = 0 ∧ HMM.ep workedModel "4" "a" = 0 ∧
    HMM.ep workedModel "2" "d" = 0 :=
  ⟨(accessors_total_missing_zero workedModel "4" "1" "a").1 (by decide),
   (accessors_total_missing_zero workedModel "4" "1" "a").2.1 (by decide),
   (accessors_total_missing_zero workedModel "2" "2" "d").2.2.1
     [("1", 1/10), ("3", 9/10)] (by decide) (by decide),
   (accessors_total_missing_zero workedModel "4" "1" "a").2.2.2.1 (by decide),
   (accessors_total_missing_zero workedModel "2" "2" "d").2.2.2.2
     [("a", 3/10), ("b", 6/10), ("c", 1/10)] (by decide) (by decide)⟩

/-- Modelled from the spec's words for claim C4's final-selection clause:
the same scan but with a strict `>` comparison, under which the *first*
maximal state would win (and a scan whose entries never exceed 0 would
leave the initial `null`). -/
def vmaxStrict (l : List String) (f : String → ℚ) : ℚ × Option String :=
  l.foldl (fun mx s => if mx.1 < f s then (f s, some s) else mx) (0, none)

/-- `viterbi` as claim C4 describes it: identical except that the final
selection among per-state terminal scores uses strict `>`. -/
def viterbiCoreStrict (m : HMM) : List String → ℚ × Option (List String)
  | [] => (0, none)
  | x0 :: rest =>
    let V0 : Table1 := m.states.map fun s => (s, m.ip s * m.ep s x0)
    let P0 : List (String × List String) := m.states.map fun s => (s, [s])
    let VP := vrun m V0 P0 rest
    let term := vmax m.states fun s => (alookup VP.1 s).getD 0 * m.tp s m.finalState
    let VL : Table1 := [(m.finalState, term.1)]
    let P' := aset VP.2 m.finalState
      (((term.2.bind (alookup VP.2)).getD []) ++ [m.finalState])
    let fin := vmaxStrict m.states fun s => (alookup VL s).getD 0
    (fin.1, fin.2.bind (alookup P'))

/-- `viterbi` with the strict final selection of claim C4. -/
def viterbiFinalStrict (m : HMM) (item : List String) : ℚ × Option (List String) :=
  ((round6 (viterbiCoreStrict m item).1), (viterbiCoreStrict m item).2)

set_option maxRecDepth 10000 in
/-- C4 counterexample: the final selection of the shipped `viterbi` does
*not* use strict `>` — it reuses the `>=` scan.  On the worked model and the
zero-probability item `['b','c','b','b']` every terminal score is 0, so
under `>=` the *last* state of the scan wins (yielding the path stored under
`'F'`), while under the claimed strict `>` no entry ever fires and the
winner stays `null` (path `undefined`); the two disagree. -/
theorem viterbi_final_scan_not_strict :
    viterbi workedModel ["b", "c", "b", "b"] ≠
      viterbiFinalStrict workedModel ["b", "c", "b", "b"] ∧
    (viterbi workedModel ["b", "c", "b", "b"]).2 =
      some ["F", "F", "F", "F", "F"] ∧
    (viterbiFinalStrict workedModel ["b", "c", "b", "b"]).2 = none := by
  decide

/-- The step function of every `viterbi` scan. -/
theorem vmax_foldl (l : List String) (f : String → ℚ) :
    vmax l f = l.foldl (fun mx s => if mx.1 ≤ f s then (f s, some s) else mx)
      (0, none) := rfl

theorem vmax_aux (f : String → ℚ) (l : List String) :
    ∀ (v : ℚ) (o : Option String),
      (l.foldl (fun mx s => if mx.1 ≤ f s then (f s, some s) else mx) (v, o) =
          (v, o) ∧ ∀ y ∈ l, f y < v) ∨
      (∃ s l1 l2, l = l1 ++ s :: l2 ∧
        l.foldl (fun mx s => if mx.1 ≤ f s then (f s, some s) else mx) (v, o) =
          (f s, some s) ∧
        v ≤ f s ∧ (∀ y ∈ l1, f y ≤ f s) ∧ (∀ y ∈ l2, f y < f s)) := by
  induction l with
  | nil => exact fun v o => Or.inl ⟨rfl, by simp⟩
  | cons a tl ih =>
    intro v o
    by_cases hva : v ≤ f a
    · rcases ih (f a) (some a) with ⟨heq, hlt⟩ | ⟨s, l1, l2, hl, heq, hle, h1, h2⟩
      · refine Or.inr ⟨a, [], tl, by simp, ?_, hva, by simp, hlt⟩
        simpa [List.foldl_cons, if_pos hva] using heq
      · refine Or.inr ⟨s, a :: l1, l2, by simp [hl], ?_, le_trans hva hle, ?_, h2⟩
        · simpa [List.foldl_cons, if_pos hva] using heq
        · intro y hy
          rcases List.mem_cons.mp hy with h | h
          · exact h ▸ hle
          · exact h1 y h
    · push_neg at hva
      rcases ih v o with ⟨heq, hlt⟩ | ⟨s, l1, l2, hl, heq, hle, h1, h2⟩
      · refine Or.inl ⟨?_, ?_⟩
        · simpa [List.foldl_cons, if_neg (not_le.mpr hva)] using heq
        · intro y hy
          rcases List.mem_cons.mp hy with h | h
          · exact h ▸ hva
          · exact hlt y h
      · refine Or.inr ⟨s, a :: l1, l2, by simp [hl], ?_, hle, ?_, h2⟩
        · simpa [List.foldl_cons, if_neg (not_le.mpr hva)] using heq
        · intro y hy
          rcases List.mem_cons.mp hy with h | h
          · exact h ▸ le_of_lt (lt_of_lt_of_le hva hle)
          · exact h1 y h

/-- C4 (amended): all three `viterbi` scans — the interior recurrence, the
termination step *and* the final selection — use the same `>=` scan `vmax`,
so ties always favour the last-examined state: whenever the scan elects a
state `s`, the score is `f s`, every state examined before `s` scores at
most `f s`, and every state examined after `s` scores strictly below `f s`
(i.e. `s` is the *last* maximal state, in the final selection as well, not
the first as the claim stated). -/
theorem vmax_picks_last_maximum (l : List String) (f : String → ℚ) (s : String)
    (h : (vmax l f).2 = some s) :
    (vmax l f).1 = f s ∧
    ∃ l1 l2, l = l1 ++ s :: l2 ∧ (∀ y ∈ l1, f y ≤ f s) ∧ (∀ y ∈ l2, f y < f s) := by
  rcases vmax_aux f l 0 none with ⟨heq, _⟩ | ⟨s', l1, l2, hl, heq, _, h1, h2⟩
  · rw [vmax_foldl, heq] at h
    exact absurd h (by simp)
  · rw [vmax_foldl, heq] at h ⊢
    obtain rfl : s' = s := by simpa using h
    exact ⟨rfl, l1, l2, hl, h1, h2⟩

/-- Witness for `vmax_picks_last_maximum`: a three-way tie is resolved in
favour of the last-examined state. -/
theorem vmax_picks_last_maximum_witness :
    (vmax ["p", "q", "r"] fun _ => (1 : ℚ)).1 = (fun _ => (1 : ℚ)) "r" ∧
    ∃ l1 l2, ["p", "q", "r"] = l1 ++ "r" :: l2 ∧
      (∀ y ∈ l1, (fun _ => (1 : ℚ)) y ≤ (fun _ => (1 : ℚ)) "r") ∧
      (∀ y ∈ l2, (fun _ => (1 : ℚ)) y < (fun _ => (1 : ℚ)) "r") :=
  vmax_picks_last_maximum ["p", "q", "r"] (fun _ => (1 : ℚ)) "r" (by decide)

/-! ## The exact path sum (spec §4.3, claims C2 and C6)

`pathSum` follows the spec's words: the sum, over every hidden path
consistent with the model topology, of the product of the path's initial,
transition and emission probabilities, including the terminal transition
into the final state.  `forwardExact` is the code's recursion with the
per-level `toFixed 6` removed. -/

/-- All hidden-state sequences of a given length over `states`. -/
def stateSeqs (states : List String) : Nat → List (List String)
  | 0 => [[]]
  | n + 1 => states.flatMap fun s => (stateSeqs states n).map fun p => s :: p

/-- The continuation factors of a hidden path from current state `s`:
remaining transition and emission factors, ending with the terminal
transition into the final state. -/
def chainProb (m : HMM) : String → List String → List String → ℚ
  | s, [], [] => m.tp s m.finalState
  | s, x :: xs, t :: ts => m.tp s t * m.ep t x * chainProb m t xs ts
  | _, _, _ => 0

/-- The probability that one hidden path generates `item`: initial choice,
then emissions and transitions, including the terminal transition. -/
def pathProb (m : HMM) : List String → List String → ℚ
  | x :: xs, s :: ss => m.ip s * m.ep s x * chainProb m s xs ss
  | _, _ => 0

/-- The exact generation probability: the sum of `pathProb` over every
hidden path. -/
def pathSum (m : HMM) (item : List String) : ℚ :=
  ((stateSeqs m.states item.length).map (pathProb m item)).sum

/-- The suffix recursion underlying both the path sum and the forward
scorer: total probability of generating `xs` and terminating, starting after
state `s` has emitted. -/
def suffSum (m : HMM) (s : String) : List String → ℚ
  | [] => m.tp s m.finalState
  | x :: xs => (m.states.map fun t => m.tp s t * m.ep t x * suffSum m t xs).sum

/-- `forwardProbability` with the per-level rounding removed and nothing
else changed (same skip of states with non-positive `initial × emission`
contribution, same inner closure). -/
def forwardExact (m : HMM) : List String → Option String → ℚ
  | [], _ => 0
  | x :: rest, st =>
    let seqProb : String → ℚ := fun source =>
      match rest with
      | [] => m.tp source m.finalState
      | _ :: _ =>
        (m.states.map fun target =>
          m.tp source target * forwardExact m rest (some target)).sum
    match st with
    | none =>
      m.states.foldl (fun acc s =>
        let iep := m.ep s x * m.ip s
        if 0 < iep then acc + iep * seqProb s else acc) 0
    | some s => m.ep s x * seqProb s

/-- All entries of all three probability tables are nonnegative (the data
model's "Probability: a real number in [0,1]", in the part the algorithms
rely on). -/
def Nonneg (m : HMM) : Prop :=
  (∀ p ∈ m.initialProbability, 0 ≤ p.2) ∧
  (∀ r ∈ m.transitionProbability, ∀ q ∈ r.2, 0 ≤ q.2) ∧
  (∀ r ∈ m.emissionProbability, ∀ q ∈ r.2, 0 ≤ q.2)

instance (m : HMM) : Decidable (Nonneg m) := by
  unfold Nonneg
  infer_instance

theorem alookup_mem {α : Type} : ∀ {l : List (String × α)} {k : String} {v : α},
    alookup l k = some v → (k, v) ∈ l := by
  intro l
  induction l with
  | nil => intro k v h; simp [alookup] at h
  | cons a t ih =>
    intro k v h
    obtain ⟨k2, v2⟩ := a
    rw [alookup] at h
    by_cases hk : k2 = k
    · rw [if_pos hk] at h
      obtain rfl : v2 = v := by simpa using h
      subst hk
      exact List.mem_cons_self _ _
    · rw [if_neg hk] at h
      exact List.mem_cons_of_mem _ (ih h)

theorem ip_nonneg {m : HMM} (h : Nonneg m) (s : String) : 0 ≤ m.ip s := by
  unfold HMM.ip
  cases hl : alookup m.initialProbability s with
  | none => simp
  | some v => simpa using h.1 _ (alookup_mem hl)

theorem row_getD_nonneg {row : Table1} (h : ∀ q ∈ row, 0 ≤ q.2) (k : String) :
    0 ≤ (alookup row k).getD 0 := by
  cases hl : alookup row k with
  | none => simp
  | some v =>
    simp only [Option.getD_some]
    exact h _ (alookup_mem hl)

theorem tp_nonneg {m : HMM} (h : Nonneg m) (s t : String) : 0 ≤ m.tp s t := by
  unfold HMM.tp
  cases hl : alookup m.transitionProbability s with
  | none => simp
  | some row =>
    show 0 ≤ (alookup row t).getD 0
    exact row_getD_nonneg (fun q hq => h.2.1 _ (alookup_mem hl) q hq) t

theorem ep_nonneg {m : HMM} (h : Nonneg m) (s x : String) : 0 ≤ m.ep s x := by
  unfold HMM.ep
  cases hl : alookup m.emissionProbability s with
  | none => simp
  | some row =>
    show 0 ≤ (alookup row x).getD 0
    exact row_getD_nonneg (fun q hq => h.2.2 _ (alookup_mem hl) q hq) x

theorem lsum_congr {α : Type} {l : List α} {f g : α → ℚ}
    (h : ∀ s ∈ l, f s = g s) : (l.map f).sum = (l.map g).sum := by
  induction l with
  | nil => rfl
  | cons a t ih =>
    simp only [List.map_cons, List.sum_cons]
    rw [h a (List.mem_cons_self a t), ih fun s hs => h s (List.mem_cons_of_mem a hs)]

theorem lsum_nonneg {α : Type} {l : List α} {f : α → ℚ}
    (h : ∀ s ∈ l, 0 ≤ f s) : 0 ≤ (l.map f).sum := by
  refine List.sum_nonneg fun x hx => ?_
  obtain ⟨s, hs, rfl⟩ := List.mem_map.mp hx
  exact h s hs

theorem lsum_single_le {α : Type} {l : List α} {f : α → ℚ} {s : α}
    (hs : s ∈ l) (h : ∀ y ∈ l, 0 ≤ f y) : f s ≤ (l.map f).sum := by
  refine List.single_le_sum (fun x hx => ?_) _ (List.mem_map_of_mem f hs)
  obtain ⟨y, hy, rfl⟩ := List.mem_map.mp hx
  exact h y hy

theorem lsum_map_add {α : Type} (l : List α) (f g : α → ℚ) :
    (l.map fun s => f s + g s).sum = (l.map f).sum + (l.map g).sum := by
  induction l with
  | nil => simp
  | cons a t ih =>
    simp only [List.map_cons, List.sum_cons, ih]
    ring

theorem lsum_zero {α : Type} (l : List α) : (l.map fun _ => (0 : ℚ)).sum = 0 := by
  induction l with
  | nil => rfl
  | cons a t ih => simp only [List.map_cons, List.sum_cons, ih, add_zero]

theorem lsum_comm {α β : Type} (l1 : List α) (l2 : List β) (g : α → β → ℚ) :
    (l1.map fun a => (l2.map fun b => g a b).sum).sum =
      (l2.map fun b => (l1.map fun a => g a b).sum).sum := by
  induction l1 with
  | nil =>
    simp only [List.map_nil, List.sum_nil]
    rw [lsum_zero]
  | cons a t ih =>
    simp only [List.map_cons, List.sum_cons, ih]
    rw [← lsum_map_add]

theorem lsum_flatMap {α β : Type} (l : List α) (g : α → List β) (h : β → ℚ) :
    ((l.flatMap g).map h).sum = (l.map fun a => ((g a).map h).sum).sum := by
  induction l with
  | nil => rfl
  | cons a t ih =>
    rw [List.flatMap_cons, List.map_append, List.sum_append, ih, List.map_cons,
      List.sum_cons]

theorem chain_sum (m : HMM) (xs : List String) :
    ∀ s, ((stateSeqs m.states xs.length).map (chainProb m s xs)).sum =
      suffSum m s xs := by
  induction xs with
  | nil =>
    intro s
    simp [stateSeqs, chainProb, suffSum]
  | cons x xs ih =>
    intro s
    show ((stateSeqs m.states (xs.length + 1)).map (chainProb m s (x :: xs))).sum = _
    rw [stateSeqs, lsum_flatMap]
    rw [lsum_congr fun t ht => ?_, suffSum]
    rw [List.map_map]
    rw [lsum_congr fun ts hts => ?_]
    rotate_left
    · exact fun ts => m.tp s t * m.ep t x * chainProb m t xs ts
    · rfl
    rw [List.sum_map_mul_left, ih t]

theorem pathSum_eq (m : HMM) (x : String) (xs : List String) :
    pathSum m (x :: xs) =
      (m.states.map fun s => m.ip s * m.ep s x * suffSum m s xs).sum := by
  unfold pathSum
  show ((stateSeqs m.states (xs.length + 1)).map (pathProb m (x :: xs))).sum = _
  rw [stateSeqs, lsum_flatMap]
  refine lsum_congr fun s hs => ?_
  rw [List.map_map]
  rw [lsum_congr fun ts hts => ?_]
  rotate_left
  · exact fun ts => m.ip s * m.ep s x * chainProb m s xs ts
  · rfl
  rw [List.sum_map_mul_left, chain_sum]

theorem forwardExact_some_nil (m : HMM) (x s : String) :
    forwardExact m [x] (some s) = m.ep s x * m.tp s m.finalState := rfl

theorem forwardExact_some_cons (m : HMM) (x y : String) (ys : List String)
    (s : String) :
    forwardExact m (x :: y :: ys) (some s) =
      m.ep s x *
        (m.states.map fun t => m.tp s t * forwardExact m (y :: ys) (some t)).sum := rfl

theorem forwardExact_none_nil (m : HMM) (x : String) :
    forwardExact m [x] none =
      m.states.foldl (fun acc s =>
        if 0 < m.ep s x * m.ip s then
          acc + m.ep s x * m.ip s * m.tp s m.finalState
        else acc) 0 := rfl

theorem forwardExact_none_cons (m : HMM) (x y : String) (ys : List String) :
    forwardExact m (x :: y :: ys) none =
      m.states.foldl (fun acc s =>
        if 0 < m.ep s x * m.ip s then
          acc + m.ep s x * m.ip s *
            (m.states.map fun t => m.tp s t * forwardExact m (y :: ys) (some t)).sum
        else acc) 0 := rfl

/-- The pinned-state forward recursion, without rounding, is exactly the
suffix sum (no nonnegativity needed: the pinned branch skips nothing). -/
theorem forwardExact_some_eq_suffSum (m : HMM) (xs : List String) :
    ∀ x s, forwardExact m (x :: xs) (some s) = m.ep s x * suffSum m s xs := by
  induction xs with
  | nil =>
    intro x s
    rw [forwardExact_some_nil, suffSum]
  | cons y ys ih =>
    intro x s
    rw [forwardExact_some_cons, suffSum]
    refine congrArg (HMul.hMul (m.ep s x)) ?_
    refine lsum_congr fun t ht => ?_
    rw [ih y t, mul_assoc]

/-- The skipping fold of the unpinned branch equals the full sum whenever
every skipped term contributes zero. -/
theorem foldl_skip_sum {α : Type} (l : List α) (g h : α → ℚ)
    (hg : ∀ s ∈ l, ¬ 0 < g s → g s * h s = 0) :
    l.foldl (fun acc s => if 0 < g s then acc + g s * h s else acc) 0 =
      (l.map fun s => g s * h s).sum := by
  suffices haux : ∀ acc, l.foldl
      (fun acc s => if 0 < g s then acc + g s * h s else acc) acc =
      acc + (l.map fun s => g s * h s).sum by
    simpa using haux 0
  induction l with
  | nil => intro acc; simp
  | cons a t ih =>
    intro acc
    by_cases ha : 0 < g a
    · simp only [List.foldl_cons, if_pos ha, List.map_cons, List.sum_cons]
      rw [ih fun s hs => hg s (List.mem_cons_of_mem a hs)]
      ring
    · simp only [List.foldl_cons, if_neg ha, List.map_cons, List.sum_cons]
      rw [ih fun s hs => hg s (List.mem_cons_of_mem a hs),
        hg a (List.mem_cons_self a t) ha]
      ring

/-- C6 (amended): with the per-level rounding removed and nothing else
changed, the forward scorer returns exactly the sum, over every hidden path
consistent with the model topology, of the path's probability (initial,
transition and emission factors, including the terminal transition into the
final state), for every model with nonnegative tables and every nonempty
item.  (The shipped scorer applies 6-digit rounding at every recursion
level, not only at the end — see `forward_rounds_at_every_level` — so its
result can differ from the rounded exact sum.) -/
theorem forwardExact_eq_pathSum (m : HMM) (h : Nonneg m) (x : String)
    (xs : List String) :
    forwardExact m (x :: xs) none = pathSum m (x :: xs) := by
  have hskip : ∀ s ∈ m.states, ¬ 0 < m.ep s x * m.ip s →
      m.ep s x * m.ip s * suffSum m s xs = 0 := by
    intro s _ hns
    have h0 : m.ep s x * m.ip s = 0 :=
      le_antisymm (not_lt.mp hns) (mul_nonneg (ep_nonneg h s x) (ip_nonneg h s))
    rw [h0, zero_mul]
  rw [pathSum_eq]
  cases xs with
  | nil =>
    rw [forwardExact_none_nil]
    rw [foldl_skip_sum m.states (fun s => m.ep s x * m.ip s)
      (fun s => m.tp s m.finalState) hskip]
    refine lsum_congr fun s hs => ?_
    rw [suffSum]
    ring
  | cons y ys =>
    rw [forwardExact_none_cons]
    rw [foldl_skip_sum m.states (fun s => m.ep s x * m.ip s)
      (fun s => (m.states.map fun t =>
        m.tp s t * forwardExact m (y :: ys) (some t)).sum)
      (fun s hs hns => by
        rw [mul_eq_zero]
        left
        exact le_antisymm (not_lt.mp hns)
          (mul_nonneg (ep_nonneg h s x) (ip_nonneg h s)))]
    refine lsum_congr fun s hs => ?_
    rw [lsum_congr fun t ht => ?_]
    rotate_left
    · exact fun t => m.tp s t * m.ep t y * suffSum m t ys
    · rw [forwardExact_some_eq_suffSum m ys y t, mul_assoc]
    rw [← suffSum]
    ring

/-- The model refuting claim C6 as stated: two parallel hidden paths whose
per-path suffix probabilities (0.0000006 each) round *up* to 0.000001 at the
inner recursion level, so the scorer returns 0.000002 while the exact path
sum 0.0000012 rounds to 0.000001. -/
def cexForwardModel : HMM where
  states := ["S", "A", "B", "F"]
  finalState := "F"
  symbols := ["x", "y"]
  initialProbability := [("S", 1)]
  transitionProbability :=
    [ ("S", [("A", 1), ("B", 1)])
    , ("A", [("F", 6/10000000)])
    , ("B", [("F", 6/10000000)]) ]
  emissionProbability :=
    [ ("S", [("x", 1)]), ("A", [("y", 1)]), ("B", [("y", 1)]) ]

set_option maxRecDepth 10000 in
/-- C6 counterexample: the shipped forward scorer does not return the
rounded exact path sum — its per-level rounding inflates each 0.0000006
suffix to 0.000001, giving 0.000002 where the exact sum rounds to
0.000001. -/
theorem forward_rounds_at_every_level :
    generationProbability cexForwardModel ["x", "y"] = 2/1000000 ∧
    round6 (pathSum cexForwardModel ["x", "y"]) = 1/1000000 ∧
    generationProbability cexForwardModel ["x", "y"] ≠
      round6 (pathSum cexForwardModel ["x", "y"]) := by
  decide

/-- Witness for `forwardExact_eq_pathSum` at the worked model and item. -/
theorem forwardExact_eq_pathSum_witness :
    Nonneg workedModel ∧
    forwardExact workedModel ["b", "c", "b", "a"] none =
      pathSum workedModel ["b", "c", "b", "a"] :=
  ⟨by decide, forwardExact_eq_pathSum workedModel (by decide) "b" ["c", "b", "a"]⟩

/-! ## The Viterbi score is bounded by the exact path sum (claim C2) -/

theorem vmax_fst_ge (l : List String) (f : String → ℚ) :
    ∀ (v : ℚ) (o : Option String),
      v ≤ (l.foldl (fun mx s => if mx.1 ≤ f s then (f s, some s) else mx) (v, o)).1 := by
  induction l with
  | nil => intro v o; exact le_refl v
  | cons a t ih =>
    intro v o
    by_cases hva : v ≤ f a
    · simp only [List.foldl_cons, if_pos hva]
      exact le_trans hva (ih (f a) (some a))
    · simp only [List.foldl_cons, if_neg hva]
      exact ih v o

theorem vmax_fst_nonneg (l : List String) (f : String → ℚ) : 0 ≤ (vmax l f).1 :=
  vmax_fst_ge l f 0 none

theorem vmax_le (l : List String) (f : String → ℚ) (c : ℚ) (hc : 0 ≤ c)
    (h : ∀ s ∈ l, f s ≤ c) : (vmax l f).1 ≤ c := by
  suffices haux : ∀ (v : ℚ) (o : Option String), v ≤ c →
      (l.foldl (fun mx s => if mx.1 ≤ f s then (f s, some s) else mx) (v, o)).1 ≤ c
    from haux 0 none hc
  induction l with
  | nil => intro v o hv; exact hv
  | cons a t ih =>
    intro v o hv
    by_cases hva : v ≤ f a
    · simp only [List.foldl_cons, if_pos hva]
      exact ih (fun s hs => h s (List.mem_cons_of_mem a hs)) (f a) (some a)
        (h a (List.mem_cons_self a t))
    · simp only [List.foldl_cons, if_neg hva]
      exact ih (fun s hs => h s (List.mem_cons_of_mem a hs)) v o hv

theorem alookup_map_self {β : Type} (g : String → β) :
    ∀ (l : List String) (t : String), t ∈ l →
      alookup (l.map fun s => (s, g s)) t = some (g t) := by
  intro l
  induction l with
  | nil => intro t ht; simp at ht
  | cons a tl ih =>
    intro t ht
    rw [List.map_cons, alookup]
    by_cases ha : a = t
    · rw [if_pos ha, ha]
    · rw [if_neg ha]
      rcases List.mem_cons.mp ht with rfl | htl
      · exact absurd rfl ha
      · exact ih t htl

/-- The score-column recursion of the `for t in [1...item.length]` loop, with
the path bookkeeping dropped. -/
def vcols (m : HMM) : Table1 → List String → Table1
  | V, [] => V
  | V, x :: rest => vcols m (vcol m V x) rest

theorem vrun_fst (m : HMM) :
    ∀ (xs : List String) (V : Table1) (P : List (String × List String)),
      (vrun m V P xs).1 = vcols m V xs := by
  intro xs
  induction xs with
  | nil => intro V P; rfl
  | cons x rest ih => intro V P; exact ih (vcol m V x) (pcol m V P x)

/-- The dynamic-programming bound: if every entry of the current column is
bounded by `g`, then the terminal Viterbi score after consuming `xs` is
bounded by the `g`-weighted suffix sums. -/
theorem vcols_term_le (m : HMM) (h : Nonneg m) :
    ∀ (xs : List String) (V : Table1) (g : String → ℚ),
      (∀ s ∈ m.states, (alookup V s).getD 0 ≤ g s) →
      (∀ s ∈ m.states, 0 ≤ (alookup V s).getD 0) →
      (vmax m.states fun s =>
        (alookup (vcols m V xs) s).getD 0 * m.tp s m.finalState).1 ≤
        (m.states.map fun s => g s * suffSum m s xs).sum := by
  intro xs
  induction xs with
  | nil =>
    intro V g hVg hV0
    have hg0 : ∀ s ∈ m.states, 0 ≤ g s := fun s hs => le_trans (hV0 s hs) (hVg s hs)
    have hsumnn : 0 ≤ (m.states.map fun s => g s * suffSum m s []).sum :=
      lsum_nonneg fun s hs => mul_nonneg (hg0 s hs)
        (by rw [suffSum]; exact tp_nonneg h s m.finalState)
    refine vmax_le _ _ _ hsumnn fun s hs => ?_
    calc (alookup (vcols m V []) s).getD 0 * m.tp s m.finalState
        = (alookup V s).getD 0 * m.tp s m.finalState := rfl
      _ ≤ g s * m.tp s m.finalState :=
          mul_le_mul_of_nonneg_right (hVg s hs) (tp_nonneg h s m.finalState)
      _ = g s * suffSum m s [] := by rw [suffSum]
      _ ≤ (m.states.map fun s => g s * suffSum m s []).sum :=
          lsum_single_le hs fun y hy => mul_nonneg (hg0 y hy)
            (by rw [suffSum]; exact tp_nonneg h y m.finalState)
  | cons x xs ih =>
    intro V g hVg hV0
    have hg0 : ∀ s ∈ m.states, 0 ≤ g s := fun s hs => le_trans (hV0 s hs) (hVg s hs)
    have hcol : ∀ t ∈ m.states, (alookup (vcol m V x) t).getD 0 =
        (vmax m.states fun s =>
          (alookup V s).getD 0 * (m.tp s t * m.ep t x)).1 := by
      intro t ht
      unfold vcol
      rw [alookup_map_self _ m.states t ht, Option.getD_some]
    have h1 : ∀ t ∈ m.states, (alookup (vcol m V x) t).getD 0 ≤
        (m.states.map fun s => g s * (m.tp s t * m.ep t x)).sum := by
      intro t ht
      rw [hcol t ht]
      have hc0 : 0 ≤ (m.states.map fun s => g s * (m.tp s t * m.ep t x)).sum :=
        lsum_nonneg fun s hs => mul_nonneg (hg0 s hs)
          (mul_nonneg (tp_nonneg h s t) (ep_nonneg h t x))
      refine vmax_le _ _ _ hc0 fun s hs => ?_
      calc (alookup V s).getD 0 * (m.tp s t * m.ep t x)
          ≤ g s * (m.tp s t * m.ep t x) := mul_le_mul_of_nonneg_right (hVg s hs)
            (mul_nonneg (tp_nonneg h s t) (ep_nonneg h t x))
        _ ≤ (m.states.map fun s => g s * (m.tp s t * m.ep t x)).sum :=
            lsum_single_le hs fun y hy => mul_nonneg (hg0 y hy)
              (mul_nonneg (tp_nonneg h y t) (ep_nonneg h t x))
    have h2 : ∀ t ∈ m.states, 0 ≤ (alookup (vcol m V x) t).getD 0 := by
      intro t ht
      rw [hcol t ht]
      exact vmax_fst_nonneg _ _
    have key := ih (vcol m V x)
      (fun t => (m.states.map fun s => g s * (m.tp s t * m.ep t x)).sum) h1 h2
    calc (vmax m.states fun s =>
          (alookup (vcols m V (x :: xs)) s).getD 0 * m.tp s m.finalState).1
        = (vmax m.states fun s =>
          (alookup (vcols m (vcol m V x) xs) s).getD 0 * m.tp s m.finalState).1 := rfl
      _ ≤ (m.states.map fun t =>
            (m.states.map fun s => g s * (m.tp s t * m.ep t x)).sum *
              suffSum m t xs).sum := key
      _ = (m.states.map fun s => g s * suffSum m s (x :: xs)).sum := by
          rw [lsum_congr fun t ht =>
            (List.sum_map_mul_right m.states
              (fun s => g s * (m.tp s t * m.ep t x)) (suffSum m t xs)).symm]
          rw [lsum_comm]
          refine lsum_congr fun s hs => ?_
          rw [suffSum]
          rw [← List.sum_map_mul_left]
          refine lsum_congr fun t ht => ?_
          ring

theorem chainProb_nonneg (m : HMM) (h : Nonneg m) :
    ∀ (xs ss : List String) (s : String), 0 ≤ chainProb m s xs ss := by
  intro xs
  induction xs with
  | nil =>
    intro ss s
    cases ss with
    | nil => exact tp_nonneg h s m.finalState
    | cons c cs => exact le_refl 0
  | cons x xs ih =>
    intro ss s
    cases ss with
    | nil => exact le_refl 0
    | cons t ts =>
      exact mul_nonneg (mul_nonneg (tp_nonneg h s t) (ep_nonneg h t x)) (ih ts t)

theorem pathSum_nonneg (m : HMM) (h : Nonneg m) (item : List String) :
    0 ≤ pathSum m item := by
  refine lsum_nonneg fun p hp => ?_
  cases item with
  | nil => cases p <;> exact le_refl 0
  | cons x xs =>
    cases p with
    | nil => exact le_refl 0
    | cons s ss =>
      exact mul_nonneg (mul_nonneg (ip_nonneg h s) (ep_nonneg h s x))
        (chainProb_nonneg m h xs ss s)

theorem round6_mono {a b : ℚ} (hab : a ≤ b) : round6 a ≤ round6 b := by
  rw [round6_eq_floor, round6_eq_floor]
  have h1 : a * 1000000 + 1/2 ≤ b * 1000000 + 1/2 := by
    have := mul_le_mul_of_nonneg_right hab (by norm_num : (0:ℚ) ≤ 1000000)
    linarith
  have h2 : (⌊a * 1000000 + 1/2⌋ : ℚ) ≤ (⌊b * 1000000 + 1/2⌋ : ℚ) :=
    Int.cast_le.mpr (Int.floor_mono h1)
  rw [div_eq_mul_inv, div_eq_mul_inv]
  exact mul_le_mul_of_nonneg_right h2 (by norm_num)

theorem viterbiCore_cons_fst (m : HMM) (x0 : String) (rest : List String) :
    (viterbiCore m (x0 :: rest)).1 =
      (vmax m.states fun s =>
        (alookup [(m.finalState,
          (vmax m.states fun s2 =>
            (alookup (vcols m (m.states.map fun s3 => (s3, m.ip s3 * m.ep s3 x0))
                rest) s2).getD 0 *
              m.tp s2 m.finalState).1)] s).getD 0).1 := by
  have h : (viterbiCore m (x0 :: rest)).1 =
      (vmax m.states fun s =>
        (alookup [(m.finalState,
          (vmax m.states fun s2 =>
            (alookup (vrun m (m.states.map fun s3 => (s3, m.ip s3 * m.ep s3 x0))
                (m.states.map fun s3 => (s3, [s3])) rest).1 s2).getD 0 *
              m.tp s2 m.finalState).1)] s).getD 0).1 := rfl
  rw [h, vrun_fst]

/-- C2 (amended): for every model with nonnegative tables and every nonempty
item, the Viterbi probability is at most the *exact* forward value — the sum
over all hidden paths rounded once at the end (which by
`forwardExact_eq_pathSum` is what the forward scorer returns when its
per-level rounding is removed).  The claim as stated — `viterbi ≤ forward`
for the shipped scorer, with equality for a single nonzero path — fails:
the scorer's per-level rounding can push its result *below* the Viterbi
probability even when exactly one path has nonzero probability (see
`viterbi_can_exceed_forward`). -/
theorem viterbi_le_rounded_pathSum (m : HMM) (h : Nonneg m) (x : String)
    (xs : List String) :
    viterbiApproximation m (x :: xs) ≤ round6 (pathSum m (x :: xs)) := by
  have hterm : (vmax m.states fun s2 =>
      (alookup (vcols m (m.states.map fun s3 => (s3, m.ip s3 * m.ep s3 x)) xs)
        s2).getD 0 * m.tp s2 m.finalState).1 ≤ pathSum m (x :: xs) := by
    rw [pathSum_eq]
    refine vcols_term_le m h xs _ (fun s => m.ip s * m.ep s x) ?_ ?_
    · intro s hs
      rw [alookup_map_self _ m.states s hs, Option.getD_some]
    · intro s hs
      rw [alookup_map_self _ m.states s hs, Option.getD_some]
      exact mul_nonneg (ip_nonneg h s) (ep_nonneg h s x)
  show round6 (viterbiCore m (x :: xs)).1 ≤ round6 (pathSum m (x :: xs))
  refine round6_mono ?_
  rw [viterbiCore_cons_fst]
  refine vmax_le _ _ _ (pathSum_nonneg m h _) fun s hs => ?_
  rw [alookup]
  by_cases hF : m.finalState = s
  · rw [if_pos hF, Option.getD_some]
    exact hterm
  · rw [if_neg hF]
    show (alookup ([] : Table1) s).getD 0 ≤ _
    rw [alookup]
    exact pathSum_nonneg m h _

/-- Witness for `viterbi_le_rounded_pathSum` at the worked model and item. -/
theorem viterbi_le_rounded_pathSum_witness :
    Nonneg workedModel ∧
    viterbiApproximation workedModel ["b", "c", "b", "a"] ≤
      round6 (pathSum workedModel ["b", "c", "b", "a"]) :=
  ⟨by decide, viterbi_le_rounded_pathSum workedModel (by decide) "b" ["c", "b", "a"]⟩

/-- The model refuting claim C2 as stated: a single chain S→A→B→F whose only
nonzero path has probability 0.7 × 0.0000024 = 0.00000168.  Viterbi rounds
once (to 0.000002), while the forward scorer first rounds the suffix
0.0000024 up to 0.000002, multiplies by 0.7 and rounds 0.0000014 down to
0.000001 — strictly below the Viterbi value. -/
def cexViterbiModel : HMM where
  states := ["S", "A", "B", "F"]
  finalState := "F"
  symbols := ["x", "y", "z"]
  initialProbability := [("S", 1)]
  transitionProbability :=
    [ ("S", [("A", 1)]), ("A", [("B", 7/10)]), ("B", [("F", 1)]) ]
  emissionProbability :=
    [ ("S", [("x", 1)]), ("A", [("y", 1)]), ("B", [("z", 24/10000000)]) ]

set_option maxRecDepth 10000 in
/-- C2 counterexample: on `cexViterbiModel` and item `['x','y','z']`, the
single hidden path `S,A,B` has positive probability (so no zero-probability
transition or emission is crossed on the Viterbi-optimal path, and exactly
one hidden path has nonzero probability — the claim's hypotheses and its
equality case), yet the Viterbi probability 0.000002 strictly exceeds the
forward probability 0.000001. -/
theorem viterbi_can_exceed_forward :
    pathProb cexViterbiModel ["x", "y", "z"] ["S", "A", "B"] = 168/100000000 ∧
    (∀ p ∈ stateSeqs cexViterbiModel.states 3, p ≠ ["S", "A", "B"] →
      pathProb cexViterbiModel ["x", "y", "z"] p = 0) ∧
    viterbiApproximation cexViterbiModel ["x", "y", "z"] = 2/1000000 ∧
    generationProbability cexViterbiModel ["x", "y", "z"] = 1/1000000 ∧
    ¬ (viterbiApproximation cexViterbiModel ["x", "y", "z"] ≤
        generationProbability cexViterbiModel ["x", "y", "z"]) := by
  decide

/-! ## Shape of the Viterbi result (claim C5) -/

theorem vmax_snd_fires (l : List String) (f : String → ℚ) (hne : l ≠ [])
    (hf : ∀ s ∈ l, 0 ≤ f s) : ∃ s, (vmax l f).2 = some s ∧ s ∈ l := by
  rcases vmax_aux f l 0 none with ⟨_, hlt⟩ | ⟨s, l1, l2, hl, heq, _, _, _⟩
  · obtain ⟨a, ha⟩ := List.exists_mem_of_ne_nil l hne
    exact absurd (hf a ha) (not_le.mpr (hlt a ha))
  · refine ⟨s, ?_, ?_⟩
    · rw [vmax_foldl, heq]
    · rw [hl]
      exact List.mem_append_right l1 (List.mem_cons_self s l2)

theorem vmax_snd_last (l : List String) (f : String → ℚ) (z : String)
    (hlast : l.getLast? = some z) (hfz : 0 ≤ f z)
    (hle : ∀ s ∈ l, f s ≤ f z) : (vmax l f).2 = some z := by
  have hz : z ∈ l := List.mem_of_mem_getLast? (hlast ▸ rfl)
  rcases vmax_aux f l 0 none with ⟨_, hlt⟩ | ⟨s, l1, l2, hl, heq, _, _, hl2⟩
  · exact absurd hfz (not_le.mpr (hlt z hz))
  · have h2 : (vmax l f).2 = some s := by rw [vmax_foldl, heq]
    cases hl2e : l2 with
    | nil =>
      have hls : l.getLast? = some s := by
        rw [hl, hl2e]
        exact List.getLast?_concat l1
      rw [h2]
      rw [hls] at hlast
      exact hlast
    | cons c cs =>
      exfalso
      have hzin : z ∈ l2 := by
        have hcs : l.getLast? = (c :: cs).getLast? := by
          rw [hl, hl2e, List.getLast?_append_cons l1 s (c :: cs)]
          exact List.getLast?_append_cons [s] c cs
        rw [hl2e]
        refine List.mem_of_mem_getLast? ?_
        rw [← hcs, hlast]
        rfl
      have hsin : s ∈ l := by
        rw [hl]
        exact List.mem_append_right l1 (List.mem_cons_self s l2)
      exact absurd (lt_of_lt_of_le (hl2 z hzin) (hle s hsin)) (lt_irrefl (f z))

theorem alookup_aset_self {α : Type} :
    ∀ (l : List (String × α)) (k : String) (v : α),
      alookup (aset l k v) k = some v := by
  intro l
  induction l with
  | nil =>
    intro k v
    show alookup [(k, v)] k = some v
    rw [alookup, if_pos rfl]
  | cons a t ih =>
    intro k v
    obtain ⟨k2, w⟩ := a
    rw [aset]
    by_cases hk : k2 = k
    · rw [if_pos hk, alookup, if_pos hk]
    · rw [if_neg hk, alookup, if_neg hk]
      exact ih k v

/-- The invariant carried by the trellis loop: every state has a nonnegative
score entry and a path entry of the expected length. -/
theorem vrun_invariant (m : HMM) (h : Nonneg m) (hne : m.states ≠ []) :
    ∀ (xs : List String) (V : Table1) (P : List (String × List String)) (n : Nat),
      (∀ s ∈ m.states, 0 ≤ (alookup V s).getD 0) →
      (∀ s ∈ m.states, ∃ p, alookup P s = some p ∧ p.length = n) →
      (∀ s ∈ m.states, 0 ≤ (alookup (vrun m V P xs).1 s).getD 0) ∧
      (∀ s ∈ m.states, ∃ p, alookup (vrun m V P xs).2 s = some p ∧
        p.length = n + xs.length) := by
  intro xs
  induction xs with
  | nil =>
    intro V P n hV hP
    exact ⟨hV, by simpa using hP⟩
  | cons x rest ih =>
    intro V P n hV hP
    have hV' : ∀ s ∈ m.states, 0 ≤ (alookup (vcol m V x) s).getD 0 := by
      intro s hs
      unfold vcol
      rw [alookup_map_self _ m.states s hs, Option.getD_some]
      exact vmax_fst_nonneg _ _
    have hP' : ∀ t ∈ m.states, ∃ p, alookup (pcol m V P x) t = some p ∧
        p.length = n + 1 := by
      intro t ht
      unfold pcol
      rw [alookup_map_self _ m.states t ht]
      obtain ⟨src, hsrc, hsrcmem⟩ := vmax_snd_fires m.states
        (fun s => (alookup V s).getD 0 * (m.tp s t * m.ep t x)) hne
        (fun s hs => mul_nonneg (hV s hs)
          (mul_nonneg (tp_nonneg h s t) (ep_nonneg h t x)))
      obtain ⟨p, hp, hplen⟩ := hP src hsrcmem
      refine ⟨p ++ [t], ?_, ?_⟩
      · show some (((vmax m.states fun s =>
            (alookup V s).getD 0 * (m.tp s t * m.ep t x)).2.bind
              (alookup P)).getD [] ++ [t]) = _
        rw [hsrc, Option.some_bind, hp, Option.getD_some]
      · rw [List.length_append, hplen]
        rfl
    have hrec := ih (vcol m V x) (pcol m V P x) (n + 1) hV' hP'
    refine ⟨hrec.1, fun s hs => ?_⟩
    obtain ⟨p, hp, hlen⟩ := hrec.2 s hs
    refine ⟨p, hp, ?_⟩
    rw [hlen, List.length_cons]
    omega

theorem viterbiCore_cons_snd (m : HMM) (x0 : String) (rest : List String) :
    (viterbiCore m (x0 :: rest)).2 =
      ((vmax m.states fun s =>
        (alookup [(m.finalState,
          (vmax m.states fun s2 =>
            (alookup (vrun m (m.states.map fun s3 => (s3, m.ip s3 * m.ep s3 x0))
              (m.states.map fun s3 => (s3, [s3])) rest).1 s2).getD 0 *
            m.tp s2 m.finalState).1)] s).getD 0).2).bind
        (alookup (aset
          (vrun m (m.states.map fun s3 => (s3, m.ip s3 * m.ep s3 x0))
            (m.states.map fun s3 => (s3, [s3])) rest).2
          m.finalState
          (((vmax m.states fun s2 =>
              (alookup (vrun m (m.states.map fun s3 => (s3, m.ip s3 * m.ep s3 x0))
                (m.states.map fun s3 => (s3, [s3])) rest).1 s2).getD 0 *
              m.tp s2 m.finalState).2.bind
            (alookup (vrun m (m.states.map fun s3 => (s3, m.ip s3 * m.ep s3 x0))
              (m.states.map fun s3 => (s3, [s3])) rest).2)).getD [] ++
            [m.finalState]))) := rfl

/-- C5 (amended): for every model with nonnegative tables whose nonempty
`states` list has the model's `finalState` as its *last* element (true of the
worked example and of every model `initialize` builds), and every item of
length L ≥ 1, `viterbi` returns a probability of the form k/10⁶ (a value
rounded to 6 decimal digits) together with a path of length L + 1 whose last
element is `finalState`.  (Without the last-element assumption the claim
fails: on an all-zero-score item the `>=` final scan elects the last state in
the list, whose stored path has length L and does not end in `finalState` —
see `viterbi_path_can_miss_finalState`.) -/
theorem viterbi_returns_rounded_prob_and_path (m : HMM) (h : Nonneg m)
    (hne : m.states ≠ []) (hlast : m.states.getLast? = some m.finalState)
    (x : String) (xs : List String) :
    (∃ k : ℤ, viterbiApproximation m (x :: xs) = (k : ℚ) / 1000000) ∧
    ∃ p, (viterbi m (x :: xs)).2 = some p ∧
      p.length = (x :: xs).length + 1 ∧ p.getLast? = some m.finalState := by
  constructor
  · exact ⟨Rat.floor ((viterbiCore m (x :: xs)).1 * 1000000 + 1/2), rfl⟩
  have hgoal2 : (viterbi m (x :: xs)).2 = (viterbiCore m (x :: xs)).2 := rfl
  rw [hgoal2, viterbiCore_cons_snd]
  set W := vrun m (m.states.map fun s3 => (s3, m.ip s3 * m.ep s3 x))
    (m.states.map fun s3 => (s3, [s3])) xs with hW
  have hinv := vrun_invariant m h hne xs
    (m.states.map fun s3 => (s3, m.ip s3 * m.ep s3 x))
    (m.states.map fun s3 => (s3, [s3])) 1
    (fun s hs => by
      rw [alookup_map_self _ m.states s hs, Option.getD_some]
      exact mul_nonneg (ip_nonneg h s) (ep_nonneg h s x))
    (fun s hs => ⟨[s], by rw [alookup_map_self _ m.states s hs], rfl⟩)
  rw [← hW] at hinv
  obtain ⟨s₀, hs₀, hs₀mem⟩ := vmax_snd_fires m.states
    (fun s2 => (alookup W.1 s2).getD 0 * m.tp s2 m.finalState) hne
    (fun s hs => mul_nonneg (hinv.1 s hs) (tp_nonneg h s m.finalState))
  obtain ⟨p₀, hp₀, hp₀len⟩ := hinv.2 s₀ hs₀mem
  have hterm0 : 0 ≤ (vmax m.states fun s2 =>
      (alookup W.1 s2).getD 0 * m.tp s2 m.finalState).1 := vmax_fst_nonneg _ _
  have hlookF : alookup [(m.finalState, (vmax m.states fun s2 =>
      (alookup W.1 s2).getD 0 * m.tp s2 m.finalState).1)] m.finalState =
      some (vmax m.states fun s2 =>
        (alookup W.1 s2).getD 0 * m.tp s2 m.finalState).1 := by
    rw [alookup, if_pos rfl]
  have hfin : (vmax m.states fun s =>
      (alookup [(m.finalState, (vmax m.states fun s2 =>
        (alookup W.1 s2).getD 0 * m.tp s2 m.finalState).1)] s).getD 0).2 =
      some m.finalState := by
    refine vmax_snd_last m.states _ m.finalState hlast ?_ ?_
    · rw [hlookF, Option.getD_some]
      exact hterm0
    · intro s hs
      rw [hlookF, Option.getD_some, alookup]
      by_cases hF : m.finalState = s
      · rw [if_pos hF, Option.getD_some]
      · rw [if_neg hF, alookup]
        exact hterm0
  rw [hfin, Option.some_bind, hs₀, Option.some_bind, hp₀, Option.getD_some,
    alookup_aset_self]
  refine ⟨p₀ ++ [m.finalState], rfl, ?_, List.getLast?_concat p₀⟩
  rw [List.length_append, hp₀len]
  simp [List.length_cons]
  omega

/-- Witness for `viterbi_returns_rounded_prob_and_path` at the worked model
and item. -/
theorem viterbi_returns_rounded_prob_and_path_witness :
    Nonneg workedModel ∧ workedModel.states ≠ [] ∧
    workedModel.states.getLast? = some workedModel.finalState ∧
    ((∃ k : ℤ, viterbiApproximation workedModel ["b", "c", "b", "a"] =
        (k : ℚ) / 1000000) ∧
      ∃ p, (viterbi workedModel ["b", "c", "b", "a"]).2 = some p ∧
        p.length = (["b", "c", "b", "a"] : List String).length + 1 ∧
        p.getLast? = some workedModel.finalState) :=
  ⟨by decide, by decide, by decide,
    viterbi_returns_rounded_prob_and_path workedModel (by decide) (by decide)
      (by decide) "b" ["c", "b", "a"]⟩

/-- The model refuting claim C5 as stated: `finalState` is not the last
element of `states`, and the item has probability 0 everywhere. -/
def cexPathModel : HMM where
  states := ["F", "1"]
  finalState := "F"
  symbols := ["a"]
  initialProbability := []
  transitionProbability := []
  emissionProbability := []

/-- C5 counterexample: on `cexPathModel` (final state listed first) and the
length-1 item `['a']`, `viterbi` returns the path `['1']` — length 1, not
L + 1 = 2, and not ending in the final state — because the all-zero `>=`
final scan elects the *last* state `'1'`, whose stored path was never
extended with `finalState`. -/
theorem viterbi_path_can_miss_finalState :
    (viterbi cexPathModel ["a"]).2 = some ["1"] ∧
    (["1"] : List String).length ≠ 2 ∧
    (["1"] : List String).getLast? ≠ some cexPathModel.finalState := by
  decide

end HmmSpec
